import Mathlib

/-!
# Verification of the vsqlite interactive session core

Shallow embedding of the interactive session core of `vsqlite` (main.go):
the persistent deduplicating command history, the render-mode state of the
command router, the value formatter, the table renderer's numeric-alignment
heuristic, the JSON-mode binary-cell encoding, and the completion engine's
column-suggestion lookup.

Go strings are modelled as lists of characters (`Str`); Go byte slices as
lists of naturals.  All definitions are translated from `main.go`; clearly
named `...Spec` definitions transcribe the natural-language specification
for comparison.
-/

set_option maxHeartbeats 1000000

namespace VSqlite

/-- A Go string, modelled as its sequence of characters. -/
abbrev Str := List Char

/-- Coerce a Lean string literal into the model. -/
def str (s : String) : Str := s.data

/-- Model of Go `unicode.IsSpace` restricted to the code points it declares
as white space that can occur in Latin-1 text: space, `\t`, `\n`, `\v`,
`\f`, `\r`, NEL (U+0085) and NBSP (U+00A0). -/
def isGoSpace (c : Char) : Bool :=
  c = ' ' || c = '\t' || c = '\n' || c = '\x0b' || c = '\x0c' ||
    c = '\r' || c = '\u0085' || c = '\u00A0'

/-- Model of Go `strings.TrimSpace`: drop white space from both ends. -/
def trimChars (cs : Str) : Str :=
  ((cs.dropWhile isGoSpace).reverse.dropWhile isGoSpace).reverse

/-- The history-file sentinel `customHistoryDelimiter = "---"` (main.go). -/
def customHistoryDelimiter : Str := str "---"

/-! ## History dedup (`dedupHistory`, main.go lines 833–859) -/

/-- Membership test of the `seen` map (`_, exists := seen[line]`),
with the Go map modelled as an association list. -/
def containsKey (seen : List (Str × Nat)) (k : Str) : Bool :=
  seen.any (fun p => p.1 = k)

/-- The backward scan of `dedupHistory`: `for i := len(lines) - 1; i >= 0; i--`,
inserting `seen[line] = i` for the first (most recent) occurrence of each
non-blank trimmed line.  The counter argument is the number of indices still
to process, so `buildSeenAux lines n []` processes `n-1, n-2, …, 0`. -/
def buildSeenAux (lines : List Str) : Nat → List (Str × Nat) → List (Str × Nat)
  | 0, seen => seen
  | k + 1, seen =>
    let line := trimChars (lines.getD k [])
    let seen' :=
      if line = [] then seen
      else if containsKey seen line then seen
      else (line, k) :: seen
    buildSeenAux lines k seen'

/-- Model of `dedupHistory` (main.go): scan newest-to-oldest recording the
most recent index of each non-blank trimmed line, collect the recorded
indices, sort them ascending (`sort.Ints`), and rebuild from the original
(untrimmed) lines at those indices. -/
def dedupHistory (lines : List Str) : List Str :=
  let seen := buildSeenAux lines lines.length []
  let indices := List.insertionSort (· ≤ ·) (seen.map Prod.snd)
  indices.map (fun i => lines.getD i [])

/-! ### Specification-side characterisation of dedup -/

/-- The trimmed text at position `i` of the input list. -/
def trimAt (lines : List Str) (i : Nat) : Str :=
  trimChars (lines.getD i [])

/-- Specification predicate: position `i` survives dedup — its line is
non-blank after trimming and no strictly later position has the same
trimmed text (so `i` is the most recent occurrence). -/
def keptAtB (lines : List Str) (i : Nat) : Bool :=
  (trimAt lines i != []) &&
    (List.range lines.length).all
      (fun j => j ≤ i || trimAt lines j != trimAt lines i)

/-- Transcription of the specification of load-time dedup: keep exactly the
surviving positions, in ascending order of original position index. -/
def dedupHistorySpec (lines : List Str) : List Str :=
  ((List.range lines.length).filter (keptAtB lines)).map
    (fun i => lines.getD i [])

/-- Propositional form of `keptAtB`. -/
def KeptAt (lines : List Str) (i : Nat) : Prop :=
  trimAt lines i ≠ [] ∧
    ∀ j, j < lines.length → i < j → trimAt lines j ≠ trimAt lines i

/-- Loop invariant of the backward scan of `dedupHistory`, with `k` indices
still to process: `seen` holds exactly the surviving positions among
`k, …, lines.length - 1`, keyed by their trimmed text, with strictly
increasing recorded indices. -/
def SeenInv (lines : List Str) (k : Nat) (seen : List (Str × Nat)) : Prop :=
  (∀ t i, (t, i) ∈ seen ↔
      (k ≤ i ∧ i < lines.length ∧ trimAt lines i = t ∧ KeptAt lines i)) ∧
  (∀ t, containsKey seen t = true ↔
      ∃ j, k ≤ j ∧ j < lines.length ∧ trimAt lines j = t ∧ t ≠ []) ∧
  List.Sorted (· < ·) (seen.map Prod.snd)

/-! ## Command-router mode state (`executor`, main.go lines 131–226) -/

/-- Render-mode state of the command router: the globals `expandedMode`
and `jsonMode` (Table mode is the default when both are off). -/
structure Session where
  expandedMode : Bool
  jsonMode : Bool
deriving DecidableEq

/-- Model of `executor` restricted to its effect on the render-mode flags:
input is trimmed; empty input is ignored; the exact token `\x` flips
expanded mode and, when turning it on, forces JSON mode off; the exact
token `\j` flips JSON mode and, when turning it on, forces expanded mode
off; every other line (meta-commands, statements, `exit`) leaves the flags
unchanged. -/
def executorStep (s : Session) (input : Str) : Session :=
  let query := trimChars input
  if query = [] then s
  else if query = str "exit" then s
  else if query = str "\\x" then
    let e := !s.expandedMode
    { expandedMode := e, jsonMode := if e then false else s.jsonMode }
  else if query = str "\\j" then
    let j := !s.jsonMode
    { expandedMode := if j then false else s.expandedMode, jsonMode := j }
  else s

/-! ## Completion engine: column suggestions (`getColumnSuggestions`,
`completer`, main.go lines 228–311, 544–564) -/

/-- An editor suggestion: display text plus category description
(go-prompt `prompt.Suggest`). -/
structure Suggest where
  text : Str
  description : Str
deriving DecidableEq

/-- Model of `getColumnSuggestions`: the per-table `PRAGMA table_info(...)`
metadata query is an external oracle returning the table's column-name
list, or `none` when the query fails (e.g. the table does not exist).  On
failure the function returns no suggestions; otherwise one suggestion per
column, labelled "column". -/
def getColumnSuggestions (tableInfo : Str → Option (List Str)) (tbl : Str) :
    List Suggest :=
  match tableInfo tbl with
  | none => []
  | some cols => cols.map (fun c => { text := c, description := str "column" })

/-- Lower-casing of a string, per Go `strings.ToLower` on ASCII. -/
def toLowerStr (s : Str) : Str := s.map Char.toLower

/-- Model of go-prompt `FilterHasPrefix` with `ignoreCase = true`, used by
`completer` to filter the column suggestions by the typed prefix. -/
def filterHasPrefix (suggestions : List Suggest) (pre : Str) : List Suggest :=
  suggestions.filter (fun s => (toLowerStr pre).isPrefixOf (toLowerStr s.text))

/-! ## Value formatter (`formatValue`, `formatTimePadded`, main.go 566–589) -/

/-- Decimal digits of a natural number, most significant first; the fuel
argument (always called with fuel > n) keeps the recursion structural. -/
def natDigitsAux : Nat → Nat → Str
  | 0, _ => []
  | fuel + 1, n =>
    if n < 10 then [Char.ofNat (48 + n)]
    else natDigitsAux fuel (n / 10) ++ [Char.ofNat (48 + n % 10)]

/-- Decimal rendering of a natural number (Go `%d` / `%v`). -/
def natDigits (n : Nat) : Str := natDigitsAux (n + 1) n

/-- Zero-pad a decimal rendering on the left to width `w`
(Go `fmt.Sprintf("%06d", …)` style). -/
def padZeros (w n : Nat) : Str :=
  List.replicate (w - (natDigits n).length) '0' ++ natDigits n

/-- Numeric value of a decimal digit string (specification side, for
round-trip statements). -/
def digitsToNat (ds : Str) : Nat :=
  ds.foldl (fun a c => 10 * a + (c.toNat - 48)) 0

/-- Model of Go `time.Time`: a calendar instant broken into the fields the
layout "2006-01-02 15:04:05" displays, plus the nanosecond part. -/
structure GoTime where
  year : Nat
  month : Nat
  day : Nat
  hour : Nat
  minute : Nat
  second : Nat
  nanosec : Nat
deriving DecidableEq

/-- Model of `formatTimePadded`: the layout "2006-01-02 15:04:05" followed
by a dot and the microseconds (`t.Nanosecond() / 1000`) printed zero-padded
to six digits (`%06d`). -/
def formatTimePadded (t : GoTime) : Str :=
  padZeros 4 t.year ++ '-' :: padZeros 2 t.month ++ '-' :: padZeros 2 t.day ++
    ' ' :: padZeros 2 t.hour ++ ':' :: padZeros 2 t.minute ++
    ':' :: padZeros 2 t.second ++ '.' :: padZeros 6 (t.nanosec / 1000)

/-- One lowercase hex digit, per the `encoding/hex` digit table. -/
def hexDigitL (n : Nat) : Char :=
  if n < 10 then Char.ofNat (48 + n) else Char.ofNat (87 + n)

/-- Model of `hex.EncodeToString`: two lowercase hex digits per byte, high
nibble first. -/
def hexEncodeToString (bs : List Nat) : Str :=
  bs.flatMap (fun b => [hexDigitL (b / 16), hexDigitL (b % 16)])

/-- Model of `strings.ToUpper` on ASCII text. -/
def toUpperStr (s : Str) : Str := s.map Char.toUpper

/-- Specification-side predicate: an uppercase hexadecimal digit. -/
def isUpperHexDigit (c : Char) : Bool :=
  ('0' ≤ c && c ≤ '9') || ('A' ≤ c && c ≤ 'F')

/-- Specification-side value of an uppercase hex digit. -/
def hexValUpper (c : Char) : Nat :=
  if c ≤ '9' then c.toNat - 48 else c.toNat - 55

/-- Specification-side decoder of an uppercase hex string back to bytes. -/
def hexDecodeUpper : Str → List Nat
  | c1 :: c2 :: rest => (16 * hexValUpper c1 + hexValUpper c2) :: hexDecodeUpper rest
  | _ => []

/-- A typed result-set cell as delivered by the engine (`database/sql`
scan into `interface{}`): `nil`, `[]byte`, `time.Time`, `int64`, or any
other value represented by its default `%v` rendering. -/
inductive Value where
  | vnull
  | vbytes (bs : List Nat)
  | vtime (t : GoTime)
  | vint (n : Int)
  | vother (s : Str)
deriving DecidableEq

/-- Decimal rendering of an `int64` (Go `%v`). -/
def intToStr (n : Int) : Str :=
  if n < 0 then '-' :: natDigits n.natAbs else natDigits n.toNat

/-- Model of `formatValue` (main.go 575–589): `nil` → "NULL"; `[]byte` →
`\x` + `strings.ToUpper(hex.EncodeToString(v))`; `time.Time` →
`formatTimePadded`; everything else → its `%v` rendering. -/
def formatValue : Value → Str
  | .vnull => str "NULL"
  | .vbytes bs => str "\\x" ++ toUpperStr (hexEncodeToString bs)
  | .vtime t => formatTimePadded t
  | .vint n => intToStr n
  | .vother s => s

/-! ## JSON-mode binary-cell encoding (`printJSON`, `isPrintable`,
main.go 726–779) -/

/-- Model of `isPrintable`: every rune of the string lies in the printable
ASCII range 32–126 (`r < 32 || r > 126` rejects). -/
def isPrintable (s : Str) : Bool :=
  s.all (fun c => !(c.toNat < 32 || 126 < c.toNat))

/-- Go `string(v)` conversion of a byte slice, mapping each byte to the
code point of the same value.  Bytes 32–126 decode to themselves under
UTF-8 as well, and any byte outside that range yields, under real UTF-8
decoding, a rune that is likewise outside 32–126 (multi-byte sequences
decode to runes ≥ 0x80, invalid bytes to U+FFFD), so this model preserves
the verdict of `isPrintable` and is exact on printable content. -/
def bytesToStr (bs : List Nat) : Str := bs.map Char.ofNat

/-- A JSON value stored in a row map by `printJSON`: either a string
produced by the binary special case, or the raw engine value passed
through to the JSON encoder. -/
inductive JValue where
  | jstr (s : Str)
  | jraw (v : Value)
deriving DecidableEq

/-- Model of the per-cell special case in `printJSON`: a `[]byte` cell
becomes its text when printable, otherwise the string
`fmt.Sprintf("\\x%s", hex.EncodeToString(v))` (lowercase hex); any other
value is stored raw. -/
def jsonCell : Value → JValue
  | .vbytes v =>
    if isPrintable (bytesToStr v) then .jstr (bytesToStr v)
    else .jstr (str "\\x" ++ hexEncodeToString v)
  | v => .jraw v

/-- Specification-side predicate: a lowercase hexadecimal digit. -/
def isLowerHexDigit (c : Char) : Bool :=
  ('0' ≤ c && c ≤ '9') || ('a' ≤ c && c ≤ 'f')

/-! ## Table renderer and the numeric-alignment heuristic
(`printPrettyTable`, `isNumeric`, main.go 591–657) -/

/-- Line splitting of a character stream at `'\n'`, the core of the
`bufio.Scanner` line loop; always returns at least one (possibly empty)
segment. -/
def splitNl : Str → List Str
  | [] => [[]]
  | c :: cs =>
    if c = '\n' then [] :: splitNl cs
    else match splitNl cs with
      | [] => [[c]]
      | l :: ls => (c :: l) :: ls

/-- `bufio.ScanLines` drops one trailing carriage return from each line. -/
def dropCR (l : Str) : Str :=
  if l.getLast? = some '\r' then l.dropLast else l

/-- Model of reading a file with `bufio.Scanner` (`ScanLines`): split at
newlines, drop the empty final segment produced by a trailing newline
(the scanner yields no empty final token there), and strip one trailing
`\r` per line. -/
def scannerLines (cs : Str) : List Str :=
  let parts := splitNl cs
  (if parts.getLast? = some [] then parts.dropLast else parts).map dropCR

/-- Join of the accumulated block lines (`strings.Join(block, "\n")`). -/
def joinNl : List Str → Str
  | [] => []
  | [l] => l
  | l :: ls => l ++ '\n' :: joinNl ls

/-- The scan loop of `loadHistory`: a sentinel line flushes the non-empty
accumulated block as one entry; any other line accumulates. -/
def scanBlocks : List Str → List Str → List Str
  | [], block => if block.isEmpty then [] else [joinNl block]
  | line :: rest, block =>
    if line = customHistoryDelimiter then
      if block.isEmpty then scanBlocks rest []
      else joinNl block :: scanBlocks rest []
    else scanBlocks rest (block ++ [line])

/-- Model of `loadHistory` applied to a file content: scan the lines into
delimited blocks, then apply load-time dedup. -/
def loadHistoryFromContent (cs : Str) : List Str :=
  dedupHistory (scanBlocks (scannerLines cs) [])

/-- Model of `strings.HasSuffix(entry, "\n")`. -/
def hasNlSuffix (e : Str) : Bool := e.getLast? = some '\n'

/-- One `saveHistory` loop iteration: the sentinel line
(`fmt.Fprintln(f, customHistoryDelimiter)`), the entry text verbatim, and
a final newline unless the entry already ends with one. -/
def writeEntry (e : Str) : Str :=
  customHistoryDelimiter ++ '\n' :: e ++ (if hasNlSuffix e then [] else ['\n'])

/-- Model of `saveHistory` writing to an empty file: the concatenation of
every entry's delimited block. -/
def saveHistoryContent (log : List Str) : Str :=
  (log.map writeEntry).flatten

/-- The entry text as it will be recovered from the file: without its
final newline when it has one. -/
def bodyCore (e : Str) : Str := if hasNlSuffix e then e.dropLast else e

/-! ## Theorems -/

theorem keptAtB_eq_true (lines : List Str) (i : Nat) :
    keptAtB lines i = true ↔ KeptAt lines i := by
  simp only [keptAtB, KeptAt, Bool.and_eq_true, bne_iff_ne, ne_eq,
    List.all_eq_true, List.mem_range, Bool.or_eq_true, decide_eq_true_eq]
  constructor
  · rintro ⟨h1, h2⟩
    refine ⟨h1, fun j hj hij => ?_⟩
    rcases h2 j hj with h | h
    · omega
    · exact h
  · rintro ⟨h1, h2⟩
    refine ⟨h1, fun j hj => ?_⟩
    by_cases hij : j ≤ i
    · exact Or.inl hij
    · exact Or.inr (h2 j hj (by omega))

theorem containsKey_iff (seen : List (Str × Nat)) (t : Str) :
    containsKey seen t = true ↔ ∃ i, (t, i) ∈ seen := by
  simp only [containsKey, List.any_eq_true, decide_eq_true_eq]
  constructor
  · rintro ⟨p, hp, h1⟩
    exact ⟨p.2, by rwa [← h1]⟩
  · rintro ⟨i, hi⟩
    exact ⟨(t, i), hi, rfl⟩

theorem seenInv_start (lines : List Str) : SeenInv lines lines.length [] := by
  refine ⟨fun t i => ?_, fun t => ?_, List.sorted_nil⟩
  · simp only [List.not_mem_nil, false_iff]
    rintro ⟨h1, h2, -, -⟩
    omega
  · simp only [containsKey, List.any_nil, Bool.false_eq_true, false_iff]
    rintro ⟨j, h1, h2, -, -⟩
    omega

theorem seenInv_step (lines : List Str) (k : Nat) (seen : List (Str × Nat))
    (hk : k < lines.length) (h : SeenInv lines (k + 1) seen) :
    SeenInv lines k
      (if trimChars (lines.getD k []) = [] then seen
       else if containsKey seen (trimChars (lines.getD k [])) then seen
       else (trimChars (lines.getD k []), k) :: seen) := by
  obtain ⟨hmem, hkey, hsort⟩ := h
  have hta : trimChars (lines.getD k []) = trimAt lines k := rfl
  by_cases hblank : trimChars (lines.getD k []) = []
  · rw [if_pos hblank]
    rw [hta] at hblank
    refine ⟨fun t i => ?_, fun t => ?_, hsort⟩
    · rw [hmem t i]
      constructor
      · rintro ⟨h1, h2, h3, h4⟩
        exact ⟨by omega, h2, h3, h4⟩
      · rintro ⟨h1, h2, h3, h4⟩
        rcases Nat.eq_or_lt_of_le h1 with rfl | h1'
        · exact absurd hblank h4.1
        · exact ⟨h1', h2, h3, h4⟩
    · rw [hkey t]
      constructor
      · rintro ⟨j, h1, h2, h3, h4⟩
        exact ⟨j, by omega, h2, h3, h4⟩
      · rintro ⟨j, h1, h2, h3, h4⟩
        rcases Nat.eq_or_lt_of_le h1 with rfl | h1'
        · rw [h3] at hblank
          exact absurd hblank h4
        · exact ⟨j, h1', h2, h3, h4⟩
  · rw [if_neg hblank]
    rw [hta] at hblank
    by_cases hseen : containsKey seen (trimChars (lines.getD k []))
    · rw [if_pos hseen]
      rw [hta, hkey] at hseen
      obtain ⟨j₀, hj₀k, hj₀n, hj₀t, -⟩ := hseen
      refine ⟨fun t i => ?_, fun t => ?_, hsort⟩
      · rw [hmem t i]
        constructor
        · rintro ⟨h1, h2, h3, h4⟩
          exact ⟨by omega, h2, h3, h4⟩
        · rintro ⟨h1, h2, h3, h4⟩
          rcases Nat.eq_or_lt_of_le h1 with rfl | h1'
          · exact absurd hj₀t (h4.2 j₀ hj₀n (by omega))
          · exact ⟨h1', h2, h3, h4⟩
      · rw [hkey t]
        constructor
        · rintro ⟨j, h1, h2, h3, h4⟩
          exact ⟨j, by omega, h2, h3, h4⟩
        · rintro ⟨j, h1, h2, h3, h4⟩
          rcases Nat.eq_or_lt_of_le h1 with rfl | h1'
          · exact ⟨j₀, by omega, hj₀n, by rw [hj₀t, h3], h4⟩
          · exact ⟨j, by omega, h2, h3, h4⟩
    · rw [if_neg hseen]
      rw [hta] at hseen ⊢
      have hnolater : ∀ j, k < j → j < lines.length →
          trimAt lines j ≠ trimAt lines k := by
        intro j h1 h2 hEq
        exact hseen ((hkey (trimAt lines k)).mpr ⟨j, by omega, h2, hEq, hblank⟩)
      have hkept : KeptAt lines k := ⟨hblank, fun j h1 h2 => hnolater j h2 h1⟩
      refine ⟨fun t i => ?_, fun t => ?_, ?_⟩
      · simp only [List.mem_cons, Prod.mk.injEq, hmem t i]
        constructor
        · rintro (⟨rfl, rfl⟩ | ⟨h1, h2, h3, h4⟩)
          · exact ⟨Nat.le_refl _, hk, rfl, hkept⟩
          · exact ⟨by omega, h2, h3, h4⟩
        · rintro ⟨h1, h2, h3, h4⟩
          rcases Nat.eq_or_lt_of_le h1 with rfl | h1'
          · exact Or.inl ⟨h3.symm, rfl⟩
          · exact Or.inr ⟨by omega, h2, h3, h4⟩
      · have hck : containsKey ((trimAt lines k, k) :: seen) t =
            (decide (trimAt lines k = t) || containsKey seen t) := by
          simp [containsKey]
        rw [hck]
        simp only [Bool.or_eq_true, decide_eq_true_eq, hkey t]
        constructor
        · rintro (rfl | ⟨j, h1, h2, h3, h4⟩)
          · exact ⟨k, Nat.le_refl k, hk, rfl, hblank⟩
          · exact ⟨j, by omega, h2, h3, h4⟩
        · rintro ⟨j, h1, h2, h3, h4⟩
          rcases Nat.eq_or_lt_of_le h1 with rfl | h1'
          · exact Or.inl h3
          · exact Or.inr ⟨j, by omega, h2, h3, h4⟩
      · simp only [List.map_cons]
        refine List.sorted_cons.mpr ⟨?_, hsort⟩
        intro b hb
        obtain ⟨⟨t', i'⟩, hmem', rfl⟩ := List.mem_map.mp hb
        have := (hmem t' i').mp hmem'
        omega

theorem buildSeenAux_inv (lines : List Str) :
    ∀ (k : Nat) (seen : List (Str × Nat)), k ≤ lines.length →
      SeenInv lines k seen → SeenInv lines 0 (buildSeenAux lines k seen)
  | 0, seen, _, h => h
  | k + 1, seen, hk, h => by
    rw [buildSeenAux]
    exact buildSeenAux_inv lines k _ (by omega)
      (seenInv_step lines k seen (by omega) h)

theorem buildSeen_spec (lines : List Str) :
    SeenInv lines 0 (buildSeenAux lines lines.length []) :=
  buildSeenAux_inv lines lines.length [] (Nat.le_refl _) (seenInv_start lines)

/-- `dedupHistory` computes exactly the specification ordering: the
surviving positions (most recent occurrence of each non-blank trimmed
text), ascending by original position index. -/
theorem dedupHistory_eq_spec (lines : List Str) :
    dedupHistory lines = dedupHistorySpec lines := by
  obtain ⟨hmem, hkey, hsort⟩ := buildSeen_spec lines
  have hsortedle :
      List.Sorted (· ≤ ·) ((buildSeenAux lines lines.length []).map Prod.snd) :=
    hsort.imp (fun h => Nat.le_of_lt h)
  have hsortid :
      List.insertionSort (· ≤ ·)
          ((buildSeenAux lines lines.length []).map Prod.snd)
        = (buildSeenAux lines lines.length []).map Prod.snd :=
    List.eq_of_perm_of_sorted (List.perm_insertionSort _ _)
      (List.sorted_insertionSort _ _) hsortedle
  have hmemidx : ∀ i, i ∈ (buildSeenAux lines lines.length []).map Prod.snd ↔
      i ∈ (List.range lines.length).filter (keptAtB lines) := by
    intro i
    simp only [List.mem_map, List.mem_filter, List.mem_range]
    constructor
    · rintro ⟨⟨t, j⟩, hp, rfl⟩
      obtain ⟨-, h2, h3, h4⟩ := (hmem t j).mp hp
      exact ⟨h2, (keptAtB_eq_true lines j).mpr h4⟩
    · rintro ⟨h1, h2⟩
      exact ⟨(trimAt lines i, i),
        (hmem (trimAt lines i) i).mpr
          ⟨Nat.zero_le i, h1, rfl, (keptAtB_eq_true lines i).mp h2⟩, rfl⟩
  have hfiltersorted :
      List.Sorted (· < ·) ((List.range lines.length).filter (keptAtB lines)) :=
    (List.pairwise_lt_range lines.length).filter _
  have hidx : (buildSeenAux lines lines.length []).map Prod.snd =
      (List.range lines.length).filter (keptAtB lines) :=
    List.eq_of_perm_of_sorted
      (List.perm_of_nodup_nodup_toFinset_eq hsort.nodup hfiltersorted.nodup
        (by ext a; simp only [List.mem_toFinset]; exact hmemidx a))
      hsortedle (hfiltersorted.imp (fun h => Nat.le_of_lt h))
  show (List.insertionSort (· ≤ ·)
      ((buildSeenAux lines lines.length []).map Prod.snd)).map
        (fun i => lines.getD i []) = _
  rw [hsortid, hidx]
  rfl

theorem mem_dedupHistorySpec (lines : List Str) (e : Str) :
    e ∈ dedupHistorySpec lines ↔
      ∃ i, i < lines.length ∧ KeptAt lines i ∧ lines.getD i [] = e := by
  simp only [dedupHistorySpec, List.mem_map, List.mem_filter, List.mem_range]
  constructor
  · rintro ⟨i, ⟨h1, h2⟩, rfl⟩
    exact ⟨i, h1, (keptAtB_eq_true lines i).mp h2, rfl⟩
  · rintro ⟨i, h1, h2, rfl⟩
    exact ⟨i, ⟨h1, (keptAtB_eq_true lines i).mpr h2⟩, rfl⟩

theorem dedupHistorySpec_nonblank (lines : List Str) :
    ∀ e ∈ dedupHistorySpec lines, trimChars e ≠ [] := by
  intro e he
  obtain ⟨i, h1, h2, rfl⟩ := (mem_dedupHistorySpec lines e).mp he
  exact h2.1

/-- After dedup, the trimmed texts of the surviving entries are pairwise
distinct. -/
theorem dedupHistorySpec_pairwise (lines : List Str) :
    List.Pairwise (fun a b => trimChars a ≠ trimChars b)
      (dedupHistorySpec lines) := by
  unfold dedupHistorySpec
  refine List.Pairwise.map _ (R := fun i j =>
      i ∈ (List.range lines.length).filter (keptAtB lines) ∧
      j ∈ (List.range lines.length).filter (keptAtB lines) ∧ i < j) ?_ ?_
  · rintro a b ⟨ha, hb, hab⟩
    rw [List.mem_filter, List.mem_range] at ha hb
    have hka := (keptAtB_eq_true lines a).mp ha.2
    intro hEq
    exact (hka.2 b hb.1 hab) hEq.symm
  · exact List.Pairwise.and_mem.mp ((List.pairwise_lt_range lines.length).filter _)

/-- Every non-blank trimmed text occurring in the input still occurs (as a
trimmed text) after dedup: its most recent occurrence survives. -/
theorem dedupHistorySpec_complete (lines : List Str) :
    ∀ i, i < lines.length → trimAt lines i ≠ [] →
      ∃ e ∈ dedupHistorySpec lines, trimChars e = trimAt lines i := by
  intro i hi hne
  set P : Nat → Prop := fun j => j < lines.length ∧ trimAt lines j = trimAt lines i
    with hP
  have hPd : DecidablePred P := fun j => by rw [hP]; infer_instance
  set j₀ := Nat.findGreatest P lines.length with hj₀
  have hPi : P i := ⟨hi, rfl⟩
  have hspec : P j₀ := Nat.findGreatest_spec (m := i) (by omega) hPi
  have hgreatest : ∀ j, j₀ < j → j < lines.length → trimAt lines j ≠ trimAt lines i := by
    intro j h1 h2 hEq
    exact Nat.findGreatest_is_greatest h1 (by omega) ⟨h2, hEq⟩
  refine ⟨lines.getD j₀ [], ?_, ?_⟩
  · refine (mem_dedupHistorySpec lines _).mpr ⟨j₀, hspec.1, ⟨?_, ?_⟩, rfl⟩
    · show trimAt lines j₀ ≠ []
      rw [hspec.2]; exact hne
    · intro j hj hj₀j hEq
      exact hgreatest j hj₀j hj (by rw [hEq, hspec.2])
  · exact hspec.2

/-- Rebuilding a list from all of its positions is the identity. -/
theorem map_getD_range (m : List Str) :
    (List.range m.length).map (fun i => m.getD i []) = m := by
  induction m with
  | nil => rfl
  | cons a m ih =>
    rw [List.length_cons, List.range_succ_eq_map, List.map_cons, List.map_map]
    simp only [List.getD_cons_zero]
    have hcomp : ∀ i ∈ List.range m.length,
        ((fun i => (a :: m).getD i []) ∘ Nat.succ) i = m.getD i [] := by
      intro i _
      simp [Function.comp, List.getD_cons_succ]
    rw [List.map_congr_left hcomp, ih]

/-- A list whose entries are non-blank with pairwise distinct trimmed texts
is a fixed point of dedup. -/
theorem dedupHistorySpec_fixed (m : List Str)
    (hblank : ∀ e ∈ m, trimChars e ≠ [])
    (hdist : List.Pairwise (fun a b => trimChars a ≠ trimChars b) m) :
    dedupHistorySpec m = m := by
  have hkept : ∀ i ∈ List.range m.length, keptAtB m i = true := by
    intro i hi
    rw [List.mem_range] at hi
    refine (keptAtB_eq_true m i).mpr ⟨?_, ?_⟩
    · have : m.getD i [] ∈ m := by
        rw [List.getD_eq_getElem m [] hi]
        exact List.getElem_mem hi
      exact hblank _ this
    · intro j hj hij
      have := List.pairwise_iff_get.mp hdist ⟨i, hi⟩ ⟨j, hj⟩ hij
      simp only [trimAt, List.getD_eq_getElem m [] hi, List.getD_eq_getElem m [] hj]
      intro hEq
      exact this (by simpa [List.get_eq_getElem] using hEq.symm)
  unfold dedupHistorySpec
  rw [List.filter_eq_self.mpr hkept, map_getD_range]

/-- C1: load-time dedup keeps, for each distinct trimmed entry text, exactly
the most recent occurrence (scanning newest to oldest), discards entries
that trim to the empty string, and orders survivors ascending by the
original position index of the kept occurrence; in particular, for a list
with "X" at position 1 and again at position 5, exactly one "X" survives
and it is ranked by slot 5 among the survivors, not slot 1. -/
theorem dedup_keeps_most_recent_in_slot_order :
    (∀ lines : List Str, dedupHistory lines = dedupHistorySpec lines) ∧
    dedupHistory [str "q0", str "X", str "q2", str "q3", str "q4", str "X"] =
      [str "q0", str "q2", str "q3", str "q4", str "X"] :=
  ⟨dedupHistory_eq_spec, by decide⟩

/-- C7: load-time dedup is idempotent — applying `dedupHistory` to an
already-deduplicated log yields the same log. -/
theorem dedup_idempotent (lines : List Str) :
    dedupHistory (dedupHistory lines) = dedupHistory lines := by
  rw [dedupHistory_eq_spec, dedupHistory_eq_spec]
  exact dedupHistorySpec_fixed _ (dedupHistorySpec_nonblank lines)
    (dedupHistorySpec_pairwise lines)

/-- C8: after load-time dedup every surviving entry's text is non-blank and
unique after trimming, and no non-blank entry is dropped except as a
duplicate: every distinct trimmed non-blank text present in the input is
still present (as a trimmed text) in the output. -/
theorem dedup_unique_trims_no_loss (lines : List Str) :
    (∀ e ∈ dedupHistory lines, trimChars e ≠ []) ∧
    List.Pairwise (fun a b => trimChars a ≠ trimChars b) (dedupHistory lines) ∧
    (∀ e ∈ lines, trimChars e ≠ [] →
      ∃ e' ∈ dedupHistory lines, trimChars e' = trimChars e) := by
  rw [dedupHistory_eq_spec]
  refine ⟨dedupHistorySpec_nonblank lines, dedupHistorySpec_pairwise lines, ?_⟩
  intro e he hne
  obtain ⟨⟨i, hi⟩, rfl⟩ := List.mem_iff_get.mp he
  have hti : trimAt lines i = trimChars (lines.get ⟨i, hi⟩) := by
    simp [trimAt, List.getD, List.getElem?_eq_getElem hi, List.get_eq_getElem]
  obtain ⟨e', he', ht⟩ := dedupHistorySpec_complete lines i hi (by rw [hti]; exact hne)
  exact ⟨e', he', by rw [ht, hti]⟩

/-- Witness for C8 at a concrete input: in the log `["a", " a "]` the
duplicate trimmed text `"a"` still occurs after dedup. -/
theorem dedup_unique_trims_no_loss_witness :
    ∃ e' ∈ dedupHistory [str "a", str " a "], trimChars e' = trimChars (str "a") :=
  (dedup_unique_trims_no_loss [str "a", str " a "]).2.2 (str "a") (by decide)
    (by decide)

theorem executorStep_not_both (s : Session) (input : Str)
    (h : ¬(s.expandedMode = true ∧ s.jsonMode = true)) :
    ¬((executorStep s input).expandedMode = true ∧
      (executorStep s input).jsonMode = true) := by
  rcases s with ⟨e, j⟩
  simp only [executorStep]
  split
  · exact h
  split
  · exact h
  split
  · cases e <;> simp
  split
  · cases j <;> simp
  · exact h

theorem foldl_executorStep_not_both (inputs : List Str) :
    ∀ s : Session, ¬(s.expandedMode = true ∧ s.jsonMode = true) →
      ¬((inputs.foldl executorStep s).expandedMode = true ∧
        (inputs.foldl executorStep s).jsonMode = true) := by
  induction inputs with
  | nil => exact fun s h => h
  | cons input rest ih =>
    intro s h
    exact ih (executorStep s input) (executorStep_not_both s input h)

/-- C3: the expanded-mode flag and the JSON-mode flag are never both on:
toggling expanded mode on while JSON mode is on turns JSON mode off, and
toggling JSON mode on while expanded mode is on turns expanded mode off,
and no sequence of submitted lines reaches, from the initial state, a
state with both flags on. -/
theorem mode_mutual_exclusion :
    (∀ s : Session, s.jsonMode = true → s.expandedMode = false →
        (executorStep s (str "\\x")).expandedMode = true ∧
        (executorStep s (str "\\x")).jsonMode = false) ∧
    (∀ s : Session, s.expandedMode = true → s.jsonMode = false →
        (executorStep s (str "\\j")).jsonMode = true ∧
        (executorStep s (str "\\j")).expandedMode = false) ∧
    (∀ inputs : List Str,
        ¬((inputs.foldl executorStep ⟨false, false⟩).expandedMode = true ∧
          (inputs.foldl executorStep ⟨false, false⟩).jsonMode = true)) := by
  refine ⟨?_, ?_, ?_⟩
  · rintro ⟨e, j⟩ h1 h2
    simp only at h1 h2
    subst h1; subst h2
    decide
  · rintro ⟨e, j⟩ h1 h2
    simp only at h1 h2
    subst h1; subst h2
    decide
  · intro inputs
    exact foldl_executorStep_not_both inputs ⟨false, false⟩ (by simp)

/-- Witness for C3: from JSON mode on, `\x` switches to expanded mode and
turns JSON off, and conversely; and a concrete input sequence ends with
at most one flag set. -/
theorem mode_mutual_exclusion_witness :
    ((executorStep ⟨false, true⟩ (str "\\x")).expandedMode = true ∧
      (executorStep ⟨false, true⟩ (str "\\x")).jsonMode = false) ∧
    ((executorStep ⟨true, false⟩ (str "\\j")).jsonMode = true ∧
      (executorStep ⟨true, false⟩ (str "\\j")).expandedMode = false) ∧
    ¬(((([str "\\j", str "\\x"]).foldl executorStep
          ⟨false, false⟩).expandedMode = true) ∧
      (((([str "\\j", str "\\x"]).foldl executorStep
          ⟨false, false⟩).jsonMode = true))) :=
  ⟨mode_mutual_exclusion.1 ⟨false, true⟩ rfl rfl,
   mode_mutual_exclusion.2.1 ⟨true, false⟩ rfl rfl,
   mode_mutual_exclusion.2.2 [str "\\j", str "\\x"]⟩

/-- C9: when the per-table column metadata query fails, the completion
engine returns an empty column-suggestion list — both directly and after
the completer's prefix filtering — rather than an error. -/
theorem column_suggestions_fail_empty
    (tableInfo : Str → Option (List Str)) (tbl pre : Str)
    (hfail : tableInfo tbl = none) :
    getColumnSuggestions tableInfo tbl = [] ∧
    filterHasPrefix (getColumnSuggestions tableInfo tbl) pre = [] := by
  simp [getColumnSuggestions, hfail, filterHasPrefix]

/-- Witness for C9: a metadata oracle that fails on every table yields no
suggestions for a concrete lookup. -/
theorem column_suggestions_fail_empty_witness :
    getColumnSuggestions (fun _ => none) (str "users") = [] ∧
    filterHasPrefix (getColumnSuggestions (fun _ => none) (str "users"))
      (str "na") = [] :=
  column_suggestions_fail_empty (fun _ => none) (str "users") (str "na") rfl

theorem toNat_ofNat_of_lt {n : Nat} (h : n < 55296) : (Char.ofNat n).toNat = n := by
  have hv : n.isValidChar := Or.inl h
  rw [Char.ofNat, dif_pos hv]
  rfl

theorem natDigitsAux_fuel : ∀ n fuel₁ fuel₂, n < fuel₁ → n < fuel₂ →
    natDigitsAux fuel₁ n = natDigitsAux fuel₂ n := by
  intro n
  induction n using Nat.strong_induction_on with
  | _ n ih =>
    intro fuel₁ fuel₂ h1 h2
    cases fuel₁ with
    | zero => omega
    | succ f =>
      cases fuel₂ with
      | zero => omega
      | succ f₂ =>
        simp only [natDigitsAux]
        split
        · rfl
        · rename_i h10
          have hd : n / 10 < n := Nat.div_lt_self (by omega) (by omega)
          rw [ih (n / 10) hd f f₂ (by omega) (by omega)]

theorem natDigits_eq (n : Nat) :
    natDigits n = if n < 10 then [Char.ofNat (48 + n)]
      else natDigits (n / 10) ++ [Char.ofNat (48 + n % 10)] := by
  show natDigitsAux (n + 1) n = _
  rw [natDigitsAux]
  split
  · rfl
  · rename_i h10
    have hd : n / 10 < n := Nat.div_lt_self (by omega) (by omega)
    rw [natDigitsAux_fuel (n / 10) n (n / 10 + 1) (by omega) (by omega)]
    rfl

theorem natDigits_length_le : ∀ k n, n < 10 ^ k → 1 ≤ k →
    (natDigits n).length ≤ k := by
  intro k
  induction k with
  | zero => omega
  | succ k ih =>
    intro n hn _
    rw [natDigits_eq]
    split
    · simp
    · rename_i h10
      have hk : 1 ≤ k := by
        rcases Nat.eq_zero_or_pos k with rfl | h
        · simp at hn; omega
        · omega
      have hdiv : n / 10 < 10 ^ k := by
        apply Nat.div_lt_of_lt_mul
        rw [Nat.mul_comm]
        simpa [Nat.pow_succ] using hn
      have := ih (n / 10) hdiv hk
      simp only [List.length_append, List.length_cons, List.length_nil]
      omega

theorem natDigits_isDigit : ∀ n, ∀ c ∈ natDigits n, c.isDigit = true := by
  have hsingle : ∀ m, m < 10 → (Char.ofNat (48 + m)).isDigit = true := by decide
  intro n
  induction n using Nat.strong_induction_on with
  | _ n ih =>
    rw [natDigits_eq]
    split
    · rename_i h10
      intro c hc
      rw [List.mem_singleton] at hc
      subst hc
      exact hsingle n h10
    · rename_i h10
      intro c hc
      rcases List.mem_append.mp hc with h | h
      · exact ih (n / 10) (Nat.div_lt_self (by omega) (by omega)) c h
      · rw [List.mem_singleton] at h
        subst h
        exact hsingle (n % 10) (Nat.mod_lt n (by omega))

theorem digitsToNat_append_one (ds : Str) (c : Char) :
    digitsToNat (ds ++ [c]) = 10 * digitsToNat ds + (c.toNat - 48) := by
  simp [digitsToNat, List.foldl_append]

theorem digitsToNat_natDigits : ∀ n, digitsToNat (natDigits n) = n := by
  intro n
  induction n using Nat.strong_induction_on with
  | _ n ih =>
    rw [natDigits_eq]
    split
    · rename_i h10
      show digitsToNat ([] ++ [Char.ofNat (48 + n)]) = n
      rw [digitsToNat_append_one, toNat_ofNat_of_lt (by omega)]
      simp [digitsToNat]
    · rename_i h10
      rw [digitsToNat_append_one, ih (n / 10) (Nat.div_lt_self (by omega) (by omega)),
        toNat_ofNat_of_lt (by omega)]
      omega

theorem digitsToNat_replicate_zero (k : Nat) (ds : Str) :
    digitsToNat (List.replicate k '0' ++ ds) = digitsToNat ds := by
  induction k with
  | zero => rfl
  | succ k ih =>
    rw [List.replicate_succ, List.cons_append]
    show (List.replicate k '0' ++ ds).foldl _ (10 * 0 + ('0'.toNat - 48)) = _
    simpa [digitsToNat] using ih

theorem padZeros_spec (w n : Nat) (h : n < 10 ^ w) (hw : 1 ≤ w) :
    (padZeros w n).length = w ∧
    (∀ c ∈ padZeros w n, c.isDigit = true) ∧
    digitsToNat (padZeros w n) = n := by
  have hlen := natDigits_length_le w n h hw
  refine ⟨?_, ?_, ?_⟩
  · simp only [padZeros, List.length_append, List.length_replicate]
    omega
  · intro c hc
    rcases List.mem_append.mp hc with hcr | hcd
    · rw [List.eq_of_mem_replicate hcr]
      decide
    · exact natDigits_isDigit n c hcd
  · rw [padZeros, digitsToNat_replicate_zero, digitsToNat_natDigits]

theorem hexDigit_upper_props : ∀ m, m < 16 →
    isUpperHexDigit (Char.toUpper (hexDigitL m)) = true ∧
    hexValUpper (Char.toUpper (hexDigitL m)) = m := by decide

theorem toUpperStr_hexEncode_cons (b : Nat) (bs : List Nat) :
    toUpperStr (hexEncodeToString (b :: bs)) =
      Char.toUpper (hexDigitL (b / 16)) :: Char.toUpper (hexDigitL (b % 16)) ::
        toUpperStr (hexEncodeToString bs) := by
  simp [toUpperStr, hexEncodeToString]

theorem hexUpper_length (bs : List Nat) :
    (toUpperStr (hexEncodeToString bs)).length = 2 * bs.length := by
  induction bs with
  | nil => rfl
  | cons b bs ih =>
    rw [toUpperStr_hexEncode_cons]
    simp only [List.length_cons, ih, List.length_cons]
    omega

theorem hexUpper_chars (bs : List Nat) (h : ∀ b ∈ bs, b < 256) :
    ∀ c ∈ toUpperStr (hexEncodeToString bs), isUpperHexDigit c = true := by
  induction bs with
  | nil => intro c hc; simp [toUpperStr, hexEncodeToString] at hc
  | cons b bs ih =>
    intro c hc
    have hb : b < 256 := h b (List.mem_cons_self b bs)
    have hdivlt : b / 16 < 16 := Nat.div_lt_of_lt_mul (by omega)
    rw [toUpperStr_hexEncode_cons] at hc
    simp only [List.mem_cons] at hc
    rcases hc with rfl | rfl | hc
    · exact (hexDigit_upper_props (b / 16) hdivlt).1
    · exact (hexDigit_upper_props (b % 16) (Nat.mod_lt b (by omega))).1
    · exact ih (fun x hx => h x (List.mem_cons_of_mem b hx)) c hc

theorem hexDecode_hexEncode (bs : List Nat) (h : ∀ b ∈ bs, b < 256) :
    hexDecodeUpper (toUpperStr (hexEncodeToString bs)) = bs := by
  induction bs with
  | nil => rfl
  | cons b bs ih =>
    have hb : b < 256 := h b (List.mem_cons_self b bs)
    have hdivlt : b / 16 < 16 := Nat.div_lt_of_lt_mul (by omega)
    rw [toUpperStr_hexEncode_cons, hexDecodeUpper,
      (hexDigit_upper_props (b / 16) hdivlt).2,
      (hexDigit_upper_props (b % 16) (Nat.mod_lt b (by omega))).2,
      ih (fun x hx => h x (List.mem_cons_of_mem b hx)), Nat.div_add_mod]

/-- C5: the shared value formatter maps Null to the literal "NULL"; a
binary value to a literal backslash-x prefix followed by the uppercase
hexadecimal encoding of its bytes (an even-length uppercase-hex string
that decodes back to the bytes); a timestamp to calendar date and time
down to the second followed by a decimal point and exactly six zero-padded
decimal digits holding the microseconds; and every other value to its
natural default string form. -/
theorem formatValue_spec :
    (formatValue .vnull = str "NULL") ∧
    (∀ bs : List Nat, (∀ b ∈ bs, b < 256) →
      formatValue (.vbytes bs) = '\\' :: 'x' :: toUpperStr (hexEncodeToString bs) ∧
      (toUpperStr (hexEncodeToString bs)).length = 2 * bs.length ∧
      (∀ c ∈ toUpperStr (hexEncodeToString bs), isUpperHexDigit c = true) ∧
      hexDecodeUpper (toUpperStr (hexEncodeToString bs)) = bs) ∧
    (∀ t : GoTime, t.nanosec < 1000000000 →
      ∃ frac : Str,
        formatValue (.vtime t) =
          padZeros 4 t.year ++ '-' :: padZeros 2 t.month ++ '-' :: padZeros 2 t.day ++
            ' ' :: padZeros 2 t.hour ++ ':' :: padZeros 2 t.minute ++
            ':' :: padZeros 2 t.second ++ '.' :: frac ∧
        frac.length = 6 ∧ (∀ c ∈ frac, c.isDigit = true) ∧
        digitsToNat frac = t.nanosec / 1000) ∧
    (∀ n : Nat, formatValue (.vint (Int.ofNat n)) = natDigits n ∧
      digitsToNat (natDigits n) = n) ∧
    (∀ s : Str, formatValue (.vother s) = s) := by
  refine ⟨rfl, ?_, ?_, ?_, fun s => rfl⟩
  · intro bs hb
    exact ⟨rfl, hexUpper_length bs, hexUpper_chars bs hb, hexDecode_hexEncode bs hb⟩
  · intro t ht
    have husec : t.nanosec / 1000 < 10 ^ 6 :=
      Nat.div_lt_of_lt_mul (by omega)
    obtain ⟨h1, h2, h3⟩ := padZeros_spec 6 (t.nanosec / 1000) husec (by omega)
    exact ⟨padZeros 6 (t.nanosec / 1000), rfl, h1, h2, h3⟩
  · intro n
    constructor
    · show intToStr (Int.ofNat n) = natDigits n
      rw [intToStr, if_neg (by simp [Int.ofNat_eq_coe])]
      simp [Int.ofNat_eq_coe]
    · exact digitsToNat_natDigits n

/-- Witness for C5 at concrete inputs: the bytes `[0, 171, 255]` (all
< 256) hex-round-trip, and a concrete timestamp formats with a six-digit
microsecond fraction. -/
theorem formatValue_spec_witness :
    ((∀ b ∈ [(0 : Nat), 171, 255], b < 256) ∧
      hexDecodeUpper (toUpperStr (hexEncodeToString [0, 171, 255])) =
        [0, 171, 255]) ∧
    ((123456789 : Nat) < 1000000000 ∧
      ∃ frac : Str,
        formatValue (.vtime ⟨2024, 3, 9, 7, 5, 6, 123456789⟩) =
          padZeros 4 2024 ++ '-' :: padZeros 2 3 ++ '-' :: padZeros 2 9 ++
            ' ' :: padZeros 2 7 ++ ':' :: padZeros 2 5 ++
            ':' :: padZeros 2 6 ++ '.' :: frac ∧
        frac.length = 6 ∧ (∀ c ∈ frac, c.isDigit = true) ∧
        digitsToNat frac = 123456789 / 1000) :=
  ⟨⟨by decide, (formatValue_spec.2.1 [0, 171, 255] (by decide)).2.2.2⟩,
   ⟨by decide, formatValue_spec.2.2.1 ⟨2024, 3, 9, 7, 5, 6, 123456789⟩ (by decide)⟩⟩

theorem isPrintable_bytesToStr (bs : List Nat) (h : ∀ b ∈ bs, b < 256) :
    isPrintable (bytesToStr bs) = true ↔ ∀ b ∈ bs, 32 ≤ b ∧ b ≤ 126 := by
  rw [isPrintable, bytesToStr, List.all_eq_true]
  constructor
  · intro hall b hb
    have hx := hall (Char.ofNat b) (List.mem_map_of_mem Char.ofNat hb)
    simp only [Bool.not_eq_true', Bool.or_eq_false_iff,
      decide_eq_false_iff_not, Nat.not_lt] at hx
    rw [toNat_ofNat_of_lt (by have := h b hb; omega)] at hx
    omega
  · intro hall c hc
    obtain ⟨b, hb, rfl⟩ := List.mem_map.mp hc
    simp only [Bool.not_eq_true', Bool.or_eq_false_iff,
      decide_eq_false_iff_not, Nat.not_lt]
    rw [toNat_ofNat_of_lt (by have := h b hb; omega)]
    have := hall b hb
    omega

theorem hexDigitL_lower : ∀ m, m < 16 → isLowerHexDigit (hexDigitL m) = true := by
  decide

theorem hexEncode_chars_lower (bs : List Nat) (h : ∀ b ∈ bs, b < 256) :
    ∀ c ∈ hexEncodeToString bs, isLowerHexDigit c = true := by
  induction bs with
  | nil => intro c hc; simp [hexEncodeToString] at hc
  | cons b bs ih =>
    intro c hc
    have hb : b < 256 := h b (List.mem_cons_self b bs)
    have hdivlt : b / 16 < 16 := Nat.div_lt_of_lt_mul (by omega)
    simp only [hexEncodeToString, List.flatMap_cons, List.cons_append,
      List.nil_append, List.mem_cons] at hc
    rcases hc with rfl | rfl | hc
    · exact hexDigitL_lower (b / 16) hdivlt
    · exact hexDigitL_lower (b % 16) (Nat.mod_lt b (by omega))
    · exact ih (fun x hx => h x (List.mem_cons_of_mem b hx)) c hc

/-- C4 counterexample: the claim says the non-printable branch uses the
**uppercase** hexadecimal encoding, but `printJSON` calls
`hex.EncodeToString` without `strings.ToUpper`, producing lowercase hex:
the byte `0xAB` is emitted as the string `\xab`, which differs from
`\x` + uppercase hex. -/
theorem json_binary_uppercase_counterexample :
    jsonCell (.vbytes [171]) = .jstr (str "\\xab") ∧
    str "\\xab" ≠ str "\\x" ++ toUpperStr (hexEncodeToString [171]) := by
  constructor <;> decide

/-- C4 (amended: lowercase in place of uppercase): in JSON mode a binary
cell whose bytes are all printable ASCII (32–126) is emitted as that text
string; otherwise it is emitted as the hex-escape prefix followed by the
**lowercase** hexadecimal encoding of the bytes — an all-lowercase-hex
string which decodes back to the bytes (shown via its uppercasing). -/
theorem json_binary_printable_or_lowercase_hex (bs : List Nat)
    (h : ∀ b ∈ bs, b < 256) :
    ((∀ b ∈ bs, 32 ≤ b ∧ b ≤ 126) →
      jsonCell (.vbytes bs) = .jstr (bytesToStr bs)) ∧
    (¬(∀ b ∈ bs, 32 ≤ b ∧ b ≤ 126) →
      jsonCell (.vbytes bs) = .jstr ('\\' :: 'x' :: hexEncodeToString bs) ∧
      (∀ c ∈ hexEncodeToString bs, isLowerHexDigit c = true) ∧
      hexDecodeUpper (toUpperStr (hexEncodeToString bs)) = bs) := by
  constructor
  · intro hp
    show (if isPrintable (bytesToStr bs) then JValue.jstr (bytesToStr bs)
        else JValue.jstr (str "\\x" ++ hexEncodeToString bs)) = _
    rw [if_pos ((isPrintable_bytesToStr bs h).mpr hp)]
  · intro hp
    show (if isPrintable (bytesToStr bs) then JValue.jstr (bytesToStr bs)
        else JValue.jstr (str "\\x" ++ hexEncodeToString bs)) = _ ∧ _
    rw [if_neg (fun hc => hp ((isPrintable_bytesToStr bs h).mp hc))]
    exact ⟨rfl, hexEncode_chars_lower bs h, hexDecode_hexEncode bs h⟩

/-- Witness for C4 (amended) at concrete inputs: the printable bytes
`"AB"` (0x41 0x42) are emitted as the text `AB`, and the single byte 0
is emitted as the lowercase hex token `\x00`. -/
theorem json_binary_printable_or_lowercase_hex_witness :
    jsonCell (.vbytes [65, 66]) = .jstr (bytesToStr [65, 66]) ∧
    jsonCell (.vbytes [0]) = .jstr ('\\' :: 'x' :: hexEncodeToString [0]) :=
  ⟨(json_binary_printable_or_lowercase_hex [65, 66] (by decide)).1 (by decide),
   ((json_binary_printable_or_lowercase_hex [0] (by decide)).2 (by decide)).1⟩

/-- C10: in JSON mode a binary cell of length zero is emitted as the empty
string (`isPrintable` is vacuously true on the empty byte sequence), never
as a hex-escaped token. -/
theorem json_empty_binary_is_empty_string :
    jsonCell (.vbytes []) = .jstr [] ∧
    JValue.jstr ([] : Str) ≠ .jstr (str "\\x" ++ hexEncodeToString []) := by
  constructor <;> decide

theorem splitNl_ne_nil (cs : Str) : splitNl cs ≠ [] := by
  match cs with
  | [] => simp [splitNl]
  | c :: cs =>
    rw [splitNl]
    split
    · simp
    · split
      · simp
      · simp

theorem splitNl_dest (cs : Str) : ∃ l ls, splitNl cs = l :: ls := by
  rcases h : splitNl cs with - | ⟨l, ls⟩
  · exact absurd h (splitNl_ne_nil cs)
  · exact ⟨l, ls, rfl⟩

theorem splitNl_nil : splitNl [] = [[]] := rfl

theorem splitNl_cons_nl (cs : Str) : splitNl ('\n' :: cs) = [] :: splitNl cs := by
  simp [splitNl]

theorem splitNl_cons_ne (c : Char) (cs : Str) (hc : ¬c = '\n') (l : Str)
    (ls : List Str) (h : splitNl cs = l :: ls) :
    splitNl (c :: cs) = (c :: l) :: ls := by
  simp only [splitNl, if_neg hc, h]

theorem joinNl_single (l : Str) : joinNl [l] = l := rfl

theorem joinNl_cons2 (l l2 : Str) (ls : List Str) :
    joinNl (l :: l2 :: ls) = l ++ '\n' :: joinNl (l2 :: ls) := rfl

theorem splitNl_append_nl (xs ys : Str) :
    splitNl (xs ++ '\n' :: ys) = splitNl xs ++ splitNl ys := by
  induction xs with
  | nil => rw [List.nil_append, splitNl_cons_nl, splitNl_nil]; rfl
  | cons c xs ih =>
    by_cases hc : c = '\n'
    · subst hc
      rw [List.cons_append, splitNl_cons_nl, splitNl_cons_nl, ih, List.cons_append]
    · obtain ⟨l, ls, hl⟩ := splitNl_dest xs
      rw [List.cons_append,
        splitNl_cons_ne c _ hc l (ls ++ splitNl ys)
          (by rw [ih, hl, List.cons_append]),
        splitNl_cons_ne c xs hc l ls hl, List.cons_append]

theorem joinNl_splitNl (cs : Str) : joinNl (splitNl cs) = cs := by
  induction cs with
  | nil => rfl
  | cons c cs ih =>
    obtain ⟨l, ls, hl⟩ := splitNl_dest cs
    by_cases hc : c = '\n'
    · subst hc
      rw [splitNl_cons_nl, hl]
      rw [hl] at ih
      rw [joinNl_cons2, ih]
      rfl
    · rw [splitNl_cons_ne c cs hc l ls hl]
      rw [hl] at ih
      cases ls with
      | nil =>
        rw [joinNl_single] at ih
        rw [joinNl_single, ih]
      | cons l2 ls2 =>
        rw [joinNl_cons2] at ih
        rw [joinNl_cons2, List.cons_append, ih]

theorem mem_splitNl (cs : Str) : ∀ l ∈ splitNl cs, ∀ c ∈ l, c ∈ cs := by
  induction cs with
  | nil =>
    intro l hl c hc
    rw [splitNl_nil, List.mem_singleton] at hl
    subst hl
    simp at hc
  | cons x cs ih =>
    intro l hl c hc
    by_cases hx : x = '\n'
    · subst hx
      rw [splitNl_cons_nl, List.mem_cons] at hl
      rcases hl with rfl | hl
      · simp at hc
      · exact List.mem_cons_of_mem _ (ih l hl c hc)
    · obtain ⟨l0, ls0, hl0⟩ := splitNl_dest cs
      rw [splitNl_cons_ne x cs hx l0 ls0 hl0, List.mem_cons] at hl
      rcases hl with rfl | hl
      · rw [List.mem_cons] at hc
        rcases hc with rfl | hc
        · exact List.mem_cons_self c cs
        · exact List.mem_cons_of_mem x
            (ih l0 (hl0 ▸ List.mem_cons_self l0 ls0) c hc)
      · exact List.mem_cons_of_mem x
          (ih l (hl0 ▸ List.mem_cons_of_mem l0 hl) c hc)

theorem hasNlSuffix_append_nl (e : Str) (h : hasNlSuffix e = true) :
    e.dropLast ++ ['\n'] = e := by
  rw [hasNlSuffix, decide_eq_true_eq] at h
  exact List.dropLast_append_getLast? '\n' h

theorem writeEntry_append (e rest : Str) :
    writeEntry e ++ rest =
      customHistoryDelimiter ++ '\n' :: (bodyCore e ++ '\n' :: rest) := by
  rw [writeEntry, bodyCore]
  by_cases h : hasNlSuffix e = true
  · rw [if_pos h, if_pos h, List.append_nil]
    rw [← hasNlSuffix_append_nl e h]
    simp [List.append_assoc]
  · rw [if_neg h, if_neg h]
    simp [List.append_assoc]

theorem saveHistoryContent_nil : saveHistoryContent [] = [] := rfl

theorem saveHistoryContent_cons (e : Str) (log : List Str) :
    saveHistoryContent (e :: log) = writeEntry e ++ saveHistoryContent log := by
  simp [saveHistoryContent]

theorem splitNl_delim : splitNl customHistoryDelimiter = [customHistoryDelimiter] := by
  decide

theorem splitNl_saveContent (log : List Str) :
    splitNl (saveHistoryContent log) =
      (log.flatMap (fun e => customHistoryDelimiter :: splitNl (bodyCore e)))
        ++ [[]] := by
  induction log with
  | nil => rfl
  | cons e log ih =>
    rw [saveHistoryContent_cons, writeEntry_append, splitNl_append_nl,
      splitNl_append_nl, splitNl_delim, ih, List.flatMap_cons]
    simp [List.append_assoc]

theorem dropCR_eq_self (l : Str) (h : '\r' ∉ l) : dropCR l = l := by
  rw [dropCR]
  split
  · rename_i hl
    exact absurd (List.mem_of_mem_getLast? hl) h
  · rfl

theorem bodyCore_chars (e : Str) : ∀ c ∈ bodyCore e, c ∈ e := by
  rw [bodyCore]
  split
  · exact fun c hc => (List.dropLast_sublist e).mem hc
  · exact fun c hc => hc

theorem scannerLines_saveContent (log : List Str)
    (hnocr : ∀ e ∈ log, '\r' ∉ e) :
    scannerLines (saveHistoryContent log) =
      log.flatMap (fun e => customHistoryDelimiter :: splitNl (bodyCore e)) := by
  rw [scannerLines, splitNl_saveContent, List.getLast?_concat, if_pos rfl,
    List.dropLast_concat]
  have hid : ∀ l ∈ log.flatMap
      (fun e => customHistoryDelimiter :: splitNl (bodyCore e)),
      dropCR l = l := by
    intro l hl
    obtain ⟨e, he, hle⟩ := List.mem_flatMap.mp hl
    rw [List.mem_cons] at hle
    rcases hle with rfl | hle
    · decide
    · refine dropCR_eq_self l (fun hcr => ?_)
      exact hnocr e he (bodyCore_chars e '\r' (mem_splitNl (bodyCore e) l hle '\r' hcr))
  calc (log.flatMap (fun e => customHistoryDelimiter :: splitNl (bodyCore e))).map
        dropCR
      = (log.flatMap (fun e => customHistoryDelimiter :: splitNl (bodyCore e))).map
        id := List.map_congr_left hid
    _ = _ := List.map_id _

theorem scanBlocks_no_delim (ls rest block : List Str)
    (h : ∀ l ∈ ls, l ≠ customHistoryDelimiter) :
    scanBlocks (ls ++ rest) block = scanBlocks rest (block ++ ls) := by
  induction ls generalizing block with
  | nil => rw [List.nil_append, List.append_nil]
  | cons l ls ih =>
    rw [List.cons_append, scanBlocks, if_neg (h l (List.mem_cons_self l ls)),
      ih (block ++ [l]) (fun x hx => h x (List.mem_cons_of_mem l hx)),
      List.append_assoc, List.singleton_append]

theorem delim_not_mem_splitNl_bodyCore (e : Str)
    (h : customHistoryDelimiter ∉ splitNl e) :
    customHistoryDelimiter ∉ splitNl (bodyCore e) := by
  rw [bodyCore]
  split
  · rename_i hsuf
    intro hmem
    apply h
    rw [← hasNlSuffix_append_nl e hsuf]
    have : e.dropLast ++ ['\n'] = e.dropLast ++ '\n' :: [] := rfl
    rw [this, splitNl_append_nl]
    exact List.mem_append_left _ hmem
  · exact h

theorem scanBlocks_flat (log : List Str) (block : List Str)
    (h : ∀ e ∈ log, customHistoryDelimiter ∉ splitNl (bodyCore e)) :
    scanBlocks
        (log.flatMap (fun e => customHistoryDelimiter :: splitNl (bodyCore e)))
        block =
      (if block.isEmpty then [] else [joinNl block]) ++ log.map bodyCore := by
  induction log generalizing block with
  | nil =>
    rw [List.flatMap_nil, scanBlocks, List.map_nil, List.append_nil]
  | cons e log ih =>
    rw [List.flatMap_cons, List.cons_append, scanBlocks, if_pos rfl]
    have hne : (splitNl (bodyCore e)).isEmpty = false := by
      rcases hs : splitNl (bodyCore e) with - | ⟨l, ls⟩
      · exact absurd hs (splitNl_ne_nil _)
      · rfl
    have hstep : scanBlocks
        (splitNl (bodyCore e) ++
          log.flatMap (fun x => customHistoryDelimiter :: splitNl (bodyCore x))) [] =
        bodyCore e :: log.map bodyCore := by
      rw [scanBlocks_no_delim _ _ []
          (fun l hl heq => h e (List.mem_cons_self e log) (heq ▸ hl)),
        List.nil_append,
        ih (splitNl (bodyCore e)) (fun x hx => h x (List.mem_cons_of_mem e hx)),
        hne]
      rw [if_neg (by simp), joinNl_splitNl, List.singleton_append]
    split
    · rename_i hb
      rw [hstep]
      simp [hb]
    · rename_i hb
      rw [hstep]
      rw [Bool.not_eq_true] at hb
      simp [hb]

theorem trimChars_append_space (xs : Str) (c : Char) (hc : isGoSpace c = true) :
    trimChars (xs ++ [c]) = trimChars xs := by
  rw [trimChars, trimChars, List.dropWhile_append]
  split
  · rename_i hemp
    rw [List.isEmpty_iff] at hemp
    rw [hemp]
    simp [List.dropWhile_cons, hc]
  · rename_i hemp
    rw [List.reverse_append]
    simp [List.dropWhile_cons, hc]

theorem trimChars_bodyCore (e : Str) : trimChars (bodyCore e) = trimChars e := by
  rw [bodyCore]
  split
  · rename_i hsuf
    conv_rhs => rw [← hasNlSuffix_append_nl e hsuf]
    rw [trimChars_append_space _ '\n' (by decide)]
  · rfl

theorem dedupSpec_trims_iff (m : List Str) (s : Str) :
    (∃ e ∈ dedupHistorySpec m, trimChars e = s) ↔
      (s ≠ [] ∧ ∃ e ∈ m, trimChars e = s) := by
  constructor
  · rintro ⟨e, he, rfl⟩
    obtain ⟨i, hi, hk, rfl⟩ := (mem_dedupHistorySpec m _).mp he
    refine ⟨hk.1, m.getD i [], ?_, rfl⟩
    rw [List.getD_eq_getElem m [] hi]
    exact List.getElem_mem hi
  · rintro ⟨hs, e, he, rfl⟩
    obtain ⟨⟨i, hi⟩, rfl⟩ := List.mem_iff_get.mp he
    have hti : trimAt m i = trimChars (m.get ⟨i, hi⟩) := by
      simp [trimAt, List.getD, List.getElem?_eq_getElem hi, List.get_eq_getElem]
    obtain ⟨e', he', ht⟩ :=
      dedupHistorySpec_complete m i hi (by rw [hti]; exact hs)
    exact ⟨e', he', by rw [ht, hti]⟩

theorem load_save (log : List Str)
    (hnodelim : ∀ e ∈ log, customHistoryDelimiter ∉ splitNl e)
    (hnocr : ∀ e ∈ log, '\r' ∉ e) :
    loadHistoryFromContent (saveHistoryContent log) =
      dedupHistory (log.map bodyCore) := by
  rw [loadHistoryFromContent, scannerLines_saveContent log hnocr,
    scanBlocks_flat log []
      (fun e he => delim_not_mem_splitNl_bodyCore e (hnodelim e he))]
  rfl

/-- C2 counterexample: the round trip does not hold for every history log
— a log whose single entry is the sentinel text `---` is non-blank after
trimming, yet saving and reloading loses it entirely, because its saved
block reads back as two sentinel lines enclosing no entry. -/
theorem history_roundtrip_counterexample :
    trimChars (str "---") = str "---" ∧ str "---" ≠ ([] : Str) ∧
    loadHistoryFromContent (saveHistoryContent [str "---"]) = [] := by
  refine ⟨by decide, by decide, by decide⟩

/-- C2 (amended: restricted to logs whose entries contain no line equal to
the sentinel `---` and no carriage return): a history log saved and then
reloaded reproduces exactly the same set of distinct trimmed entries —
internal line breaks of multi-line entries are part of the preserved
trimmed texts. -/
theorem history_roundtrip (log : List Str)
    (hblank : ∀ e ∈ log, trimChars e ≠ [])
    (hnodelim : ∀ e ∈ log, customHistoryDelimiter ∉ splitNl e)
    (hnocr : ∀ e ∈ log, '\r' ∉ e) :
    ∀ s : Str,
      (∃ e ∈ loadHistoryFromContent (saveHistoryContent log),
        trimChars e = s) ↔
      ∃ e ∈ log, trimChars e = s := by
  intro s
  rw [load_save log hnodelim hnocr, dedupHistory_eq_spec, dedupSpec_trims_iff]
  constructor
  · rintro ⟨-, e', he', ht⟩
    obtain ⟨e, he, rfl⟩ := List.mem_map.mp he'
    refine ⟨e, he, ?_⟩
    rw [← trimChars_bodyCore e]
    exact ht
  · rintro ⟨e, he, rfl⟩
    exact ⟨hblank e he, bodyCore e, List.mem_map_of_mem bodyCore he,
      trimChars_bodyCore e⟩

/-- Witness for C2 (amended) at a concrete log containing a plain entry
and a multi-line entry: the hypotheses hold and the reloaded trimmed-entry
sets coincide. -/
theorem history_roundtrip_witness :
    (∀ e ∈ [str "select 1;", str "a\nb"], trimChars e ≠ []) ∧
    (∀ s : Str,
      (∃ e ∈ loadHistoryFromContent
          (saveHistoryContent [str "select 1;", str "a\nb"]),
        trimChars e = s) ↔
      ∃ e ∈ [str "select 1;", str "a\nb"], trimChars e = s) :=
  ⟨by decide,
   history_roundtrip [str "select 1;", str "a\nb"]
     (by decide) (by decide) (by decide)⟩

end VSqlite
